import Mathlib

/-!
Verification of the real-time correlation core of the AI detection agent
(backend/src/services/ai): the behavioral analytics engine, the graph
correlation engine and the detection-agent orchestrator.  Numeric values are
modelled as exact rationals, JS strings as `String` (or `List Char` where
substring tests matter), and the mutable baseline map as an association list
threaded through the functions as explicit state.
-/

namespace AIDetection

/-! ### Data model (types consumed by the services) -/

/-- An entity reference inside a normalized security event. -/
structure Entity where
  id : String
  type : String
deriving DecidableEq, Repr

/-- The five entity groups of `event.normalizedData.entities`. -/
structure EntityGroups where
  users : List Entity
  hosts : List Entity
  networks : List Entity
  processes : List Entity
  files : List Entity
deriving DecidableEq, Repr

/-- The `risk` block of a normalized event. -/
structure RiskInfo where
  score : ℚ
deriving DecidableEq, Repr

/-- The parts of a JS `Date` the services read: `getHours()` and `getDay()`. -/
structure Timestamp where
  hour : ℕ
  day : ℕ
deriving DecidableEq, Repr

/-- A normalized security event (the fields the correlation core reads). -/
structure SecurityEvent where
  id : String
  eventType : List Char
  timestamp : Timestamp
  entities : EntityGroups
  risk : RiskInfo
deriving DecidableEq, Repr

/-- Timing histogram of a behavior pattern. -/
structure TimingInfo where
  businessHours : ℕ
  afterHours : ℕ
  weekends : ℕ
  holidays : ℕ
  peakHours : List ℕ
deriving DecidableEq, Repr

/-- A per-pattern-type slice of a behavioral baseline: `frequency` is the
exponentially-weighted mean, `variance` the exponentially-weighted deviation. -/
structure BehaviorPattern where
  type : String
  frequency : ℚ
  timing : TimingInfo
  variance : ℚ
deriving DecidableEq, Repr

/-- Per-entity behavioral baseline. -/
structure BehavioralBaseline where
  entityId : String
  entityType : String
  patterns : List BehaviorPattern
  confidence : ℚ
deriving DecidableEq, Repr

/-- The baseline store: the `baselines : Map<string, BehavioralBaseline>` of
`BehavioralAnalytics`, as an association list keyed by entity id. -/
def Store := List (String × BehavioralBaseline)
deriving instance DecidableEq for Store

/-- `Map.get` on the baseline store. -/
def getB (st : Store) (id : String) : Option BehavioralBaseline :=
  match st with
  | [] => none
  | (k, v) :: rest => if k = id then some v else getB rest id

/-- `Map.set` on the baseline store (replace or append). -/
def putB (st : Store) (id : String) (b : BehavioralBaseline) : Store :=
  match st with
  | [] => [(id, b)]
  | (k, v) :: rest => if k = id then (id, b) :: rest else (k, v) :: putB rest id b

/-- Configuration of the behavioral analytics service. -/
structure BehavioralConfig where
  anomalyThreshold : ℚ
  learningRate : ℚ
deriving DecidableEq, Repr

/-! ### Behavioral Analytics (BehavioralAnalytics.ts) -/

/-- All entities of an event, in the iteration order of
`Object.entries(event.normalizedData.entities)`. -/
def allEntities (e : SecurityEvent) : List Entity :=
  e.entities.users ++ e.entities.hosts ++ e.entities.networks ++
    e.entities.processes ++ e.entities.files

/-- `extractPatternValue`: the scalar current value of a pattern type. -/
def extractPatternValue (e : SecurityEvent) (patternType : String) : ℚ :=
  if patternType = "login_pattern" then e.entities.users.length
  else if patternType = "data_access" then e.entities.files.length
  else if patternType = "network_communication" then e.entities.networks.length
  else if patternType = "file_operations" then e.entities.files.length
  else if patternType = "process_execution" then e.entities.processes.length
  else if patternType = "privilege_escalation" then e.risk.score
  else 1

/-- Result of `analyzePattern`. -/
structure PatternAnalysis where
  isAnomaly : Bool
  severity : ℚ
  confidence : ℚ
  deviation : ℚ
deriving DecidableEq, Repr

/-- `analyzePattern`: score one behavior pattern against a current value. -/
def analyzePattern (cfg : BehavioralConfig) (pattern : BehaviorPattern)
    (currentValue : ℚ) : PatternAnalysis :=
  let mean := pattern.frequency
  let stdDev := pattern.variance
  let zScore := if stdDev > 0 then |currentValue - mean| / stdDev else 0
  let severity := min 1 (zScore / 3)
  let confidence := min 1 (pattern.frequency / 100)
  let deviation := if stdDev > 0 then |currentValue - mean| / mean * 100 else 0
  ⟨decide (zScore > cfg.anomalyThreshold), severity, confidence, deviation⟩

/-- A detected behavior anomaly (string description omitted). -/
structure BehaviorAnomaly where
  type : String
  severity : ℚ
  confidence : ℚ
  deviation : ℚ
  baseline : ℚ
  current : ℚ
deriving DecidableEq, Repr

/-- `initializePatterns`: the five zeroed patterns of a fresh baseline. -/
def initializePatterns : List BehaviorPattern :=
  [⟨"login_pattern", 0, ⟨0, 0, 0, 0, []⟩, 0⟩,
   ⟨"data_access", 0, ⟨0, 0, 0, 0, []⟩, 0⟩,
   ⟨"network_communication", 0, ⟨0, 0, 0, 0, []⟩, 0⟩,
   ⟨"file_operations", 0, ⟨0, 0, 0, 0, []⟩, 0⟩,
   ⟨"process_execution", 0, ⟨0, 0, 0, 0, []⟩, 0⟩]

/-- `createInitialBaseline`: lazy baseline creation with confidence 0.1. -/
def createInitialBaseline (entityId entityType : String) : BehavioralBaseline :=
  ⟨entityId, entityType, initializePatterns, 0.1⟩

/-- Per-entity analysis result of `analyzeEntityBehavior`. -/
structure EntityAnalysis where
  anomalies : List BehaviorAnomaly
  riskScore : ℚ
  confidence : ℚ
deriving DecidableEq, Repr

/-- Accumulator of the pattern loop in `analyzeEntityBehavior`. -/
structure AnomAcc where
  anomalies : List BehaviorAnomaly
  totalRiskScore : ℚ
  totalConfidence : ℚ
  analysisCount : ℕ
deriving DecidableEq, Repr

/-- `analyzeEntityBehavior`: score one entity against its baseline; a missing
baseline triggers lazy creation and yields the zero result. -/
def analyzeEntityBehavior (cfg : BehavioralConfig) (st : Store) (entity : Entity)
    (e : SecurityEvent) : EntityAnalysis × Store :=
  match getB st entity.id with
  | none =>
    (⟨[], 0, 0⟩, putB st entity.id (createInitialBaseline entity.id entity.type))
  | some baseline =>
    let acc := baseline.patterns.foldl (fun (acc : AnomAcc) p =>
      let currentValue := extractPatternValue e p.type
      let analysis := analyzePattern cfg p currentValue
      if analysis.isAnomaly then
        ⟨acc.anomalies ++
            [⟨p.type, analysis.severity, analysis.confidence, analysis.deviation,
              p.frequency, currentValue⟩],
          acc.totalRiskScore + analysis.severity * analysis.confidence,
          acc.totalConfidence + analysis.confidence,
          acc.analysisCount + 1⟩
      else acc) ⟨[], 0, 0, 0⟩
    (⟨acc.anomalies,
      if acc.analysisCount > 0 then acc.totalRiskScore / acc.analysisCount else 0,
      if acc.analysisCount > 0 then acc.totalConfidence / acc.analysisCount else 0⟩,
      st)

/-- Result of `analyzeEvent` (baseline comparison and recommendation strings
omitted). -/
structure BehavioralResult where
  anomalies : List BehaviorAnomaly
  riskScore : ℚ
  confidence : ℚ
deriving DecidableEq, Repr

/-- `analyzeEvent`: fold `analyzeEntityBehavior` over every entity of the
event, threading the store (lazy baseline creation is a side effect). -/
def analyzeEvent (cfg : BehavioralConfig) (st : Store) (e : SecurityEvent) :
    BehavioralResult × Store :=
  let r := (allEntities e).foldl (fun (acc : AnomAcc × Store) ent =>
    let (ea, st') := analyzeEntityBehavior cfg acc.2 ent e
    if ea.anomalies.length > 0 then
      (⟨acc.1.anomalies ++ ea.anomalies,
        acc.1.totalRiskScore + ea.riskScore,
        acc.1.totalConfidence + ea.confidence,
        acc.1.analysisCount + 1⟩, st')
    else (acc.1, st')) (⟨[], 0, 0, 0⟩, st)
  (⟨r.1.anomalies,
    if r.1.analysisCount > 0 then r.1.totalRiskScore / r.1.analysisCount else 0,
    if r.1.analysisCount > 0 then r.1.totalConfidence / r.1.analysisCount else 0⟩,
    r.2)

/-- `updateTimingPattern`: bump the timing histogram for one event timestamp. -/
def updateTimingPattern (t : TimingInfo) (ts : Timestamp) : TimingInfo :=
  let isWeekend := ts.day = 0 ∨ ts.day = 6
  let isBusinessHours := 9 ≤ ts.hour ∧ ts.hour ≤ 17
  let t1 :=
    if isBusinessHours ∧ ¬ isWeekend then { t with businessHours := t.businessHours + 1 }
    else if ¬ isBusinessHours ∧ ¬ isWeekend then { t with afterHours := t.afterHours + 1 }
    else if isWeekend then { t with weekends := t.weekends + 1 }
    else t
  if ts.hour ∈ t1.peakHours then t1
  else { t1 with peakHours := t1.peakHours ++ [ts.hour] }

/-- One pattern step of `updateEntityBaseline`: exponential moving averages for
frequency and variance (the deviation is taken against the updated mean). -/
def updatePatternWith (cfg : BehavioralConfig) (e : SecurityEvent)
    (p : BehaviorPattern) : BehaviorPattern :=
  let currentValue := extractPatternValue e p.type
  let frequency := (1 - cfg.learningRate) * p.frequency + cfg.learningRate * currentValue
  let deviation := |currentValue - frequency|
  let variance := (1 - cfg.learningRate) * p.variance + cfg.learningRate * deviation
  { p with frequency := frequency, variance := variance,
           timing := updateTimingPattern p.timing e.timestamp }

/-- `updateEntityBaseline`: update every pattern and bump confidence by 0.01
capped at 1.0 (metrics recomputation omitted: no claim reads it). -/
def updateEntityBaseline (cfg : BehavioralConfig) (b : BehavioralBaseline)
    (e : SecurityEvent) : BehavioralBaseline :=
  { b with patterns := b.patterns.map (updatePatternWith cfg e),
           confidence := min 1 (b.confidence + 0.01) }

/-- `updateBaseline`: for every entity of the event, create the baseline if
missing and then apply `updateEntityBaseline`. -/
def updateBaseline (cfg : BehavioralConfig) (st : Store) (e : SecurityEvent) : Store :=
  (allEntities e).foldl (fun st ent =>
    match getB st ent.id with
    | some b => putB st ent.id (updateEntityBaseline cfg b e)
    | none =>
      let b0 := createInitialBaseline ent.id ent.type
      putB (putB st ent.id b0) ent.id (updateEntityBaseline cfg b0 e)) st

/-! ### Graph Correlation Engine (GraphCorrelationEngine.ts) -/

/-- A scored relationship between two entities (candidate correlation edge). -/
structure EntityCorrelation where
  sourceEntity : String
  targetEntity : String
  relationship : String
  strength : ℚ
  confidence : ℚ
deriving DecidableEq, Repr

/-- A graph node extracted from an event (only the id is read by the chain
detection path). -/
structure GraphNode where
  id : String
deriving DecidableEq, Repr

/-- A derived threat chain (description string omitted). -/
structure ThreatChain where
  entities : List String
  relationships : List EntityCorrelation
  riskScore : ℚ
  pattern : String
deriving DecidableEq, Repr

/-- Append a node id to the accumulator unless already present (JS `Map` key
insertion order). -/
def addNode (acc : List String) (x : String) : List String :=
  if x ∈ acc then acc else acc ++ [x]

/-- The keys of the adjacency map built by `findConnectedComponents`: every
edge endpoint, in first-insertion order. -/
def nodesOf (cs : List EntityCorrelation) : List String :=
  cs.foldl (fun acc c => addNode (addNode acc c.sourceEntity) c.targetEntity) []

/-- The undirected adjacency list of a node (a target of `corr.sourceEntity`
additions and `corr.targetEntity` additions; duplicates are harmless because
the DFS skips visited nodes). -/
def neighbors (cs : List EntityCorrelation) (u : String) : List String :=
  cs.flatMap (fun c =>
    (if c.sourceEntity = u then [c.targetEntity] else []) ++
    (if c.targetEntity = u then [c.sourceEntity] else []))

/-- The undirected adjacency relation induced by the candidate edges. -/
def adj (cs : List EntityCorrelation) (a b : String) : Prop :=
  ∃ c ∈ cs, (c.sourceEntity = a ∧ c.targetEntity = b) ∨
    (c.sourceEntity = b ∧ c.targetEntity = a)

instance (cs : List EntityCorrelation) (a b : String) : Decidable (adj cs a b) := by
  unfold adj; infer_instance

/-- The neighbor loop of `dfs`: for each neighbor not yet visited, recurse via
`child`. -/
def dfsList (child : String → List String → List String) :
    List String → List String → List String
  | [], visited => visited
  | n :: ns, visited =>
    if n ∈ visited then dfsList child ns visited
    else dfsList child ns (child n visited)

/-- `dfs`: mark the node visited (the TS code also pushes it onto the current
component, which here is the suffix of the visited list) and recurse into its
neighbors.  The fuel argument only bounds the recursion depth; with fuel
larger than the number of unvisited graph nodes it is never exhausted. -/
def dfsNode (cs : List EntityCorrelation) : ℕ → String → List String → List String
  | 0, _, visited => visited
  | fuel + 1, u, visited => dfsList (dfsNode cs fuel) (neighbors cs u) (visited ++ [u])

/-- `dfs` with adequate fuel. -/
def dfs (cs : List EntityCorrelation) (u : String) (visited : List String) :
    List String :=
  dfsNode cs ((nodesOf cs).length + 1) u visited

/-- The component loop of `findConnectedComponents`: each unvisited graph key
starts a DFS; the emitted component is exactly the part the DFS appended to
the visited list. -/
def ccGo (cs : List EntityCorrelation) :
    List String → List String → List (List String)
  | [], _ => []
  | u :: us, visited =>
    if u ∈ visited then ccGo cs us visited
    else (dfs cs u visited).drop visited.length :: ccGo cs us (dfs cs u visited)

/-- `findConnectedComponents`: connected components of the undirected graph of
candidate edges, via depth-first traversal. -/
def findConnectedComponents (cs : List EntityCorrelation) : List (List String) :=
  ccGo cs (nodesOf cs) []

/-- `calculateChainRiskScore`: 0 for an edgeless chain, otherwise the weighted
sum of the length factor and the average edge strength and confidence. -/
def calculateChainRiskScore (entities : List String)
    (correlations : List EntityCorrelation) : ℚ :=
  if correlations.length = 0 then 0
  else
    let avgStrength := (correlations.map (·.strength)).sum / correlations.length
    let avgConfidence := (correlations.map (·.confidence)).sum / correlations.length
    let lengthFactor := min 1 ((entities.length : ℚ) / 10)
    lengthFactor * 0.4 + avgStrength * 0.4 + avgConfidence * 0.2

/-- First-occurrence deduplication (JS `new Set(array)` iteration order). -/
def uniqAux (seen : List String) : List String → List String
  | [] => []
  | a :: as => if a ∈ seen then uniqAux seen as else a :: uniqAux (a :: seen) as

/-- Distinct elements of a list, keeping first occurrences. -/
def uniqList (l : List String) : List String := uniqAux [] l

/-- `identifyThreatPattern`: classify a chain from the distinct relationship
types of its internal edges, first match winning. -/
def identifyThreatPattern (_entities : List String)
    (correlations : List EntityCorrelation) : String :=
  let uniqueTypes := uniqList (correlations.map (·.relationship))
  if "communicates_with" ∈ uniqueTypes ∧ "accesses" ∈ uniqueTypes then
    "lateral_movement"
  else if "executes" ∈ uniqueTypes ∧ "accesses" ∈ uniqueTypes then
    "privilege_escalation"
  else if "communicates_with" ∈ uniqueTypes ∧ uniqueTypes.length > 2 then
    "command_and_control"
  else if "accesses" ∈ uniqueTypes ∧ uniqueTypes.length > 3 then
    "data_exfiltration"
  else "suspicious_activity"

/-- `analyzeThreatChain`: restrict the candidate edges to those internal to the
component, then score and classify. -/
def analyzeThreatChain (entities : List String)
    (correlations : List EntityCorrelation) : ThreatChain :=
  let chainCorrelations := correlations.filter (fun c =>
    c.sourceEntity ∈ entities ∧ c.targetEntity ∈ entities)
  ⟨entities, chainCorrelations,
    calculateChainRiskScore entities chainCorrelations,
    identifyThreatPattern entities chainCorrelations⟩

/-- `findThreatChains`: a connected component yields a chain only when it has
at least 3 entities and its risk score exceeds 0.5. -/
def findThreatChains (_entities : List GraphNode)
    (correlations : List EntityCorrelation) : List ThreatChain :=
  (findConnectedComponents correlations).filterMap (fun component =>
    if 3 ≤ component.length then
      if (analyzeThreatChain component correlations).riskScore > 0.5 then
        some (analyzeThreatChain component correlations)
      else none
    else none)

/-! ### Detection Agent orchestrator (DetectionAgent.ts) -/

/-- Rule performance counters and derived metrics. -/
structure RulePerformance where
  totalMatches : ℕ
  truePositives : ℕ
  falsePositives : ℕ
  falseNegatives : ℕ
  accuracy : ℚ
  precisionScore : ℚ
  recallScore : ℚ
  f1Score : ℚ
deriving DecidableEq, Repr

/-- A detection rule (the fields the orchestrator reads: the MITRE technique
list of `rule.metadata` and the performance block). -/
structure DetectionRule where
  id : String
  mitreTechniques : List (List Char)
  performance : RulePerformance
deriving DecidableEq, Repr

/-- The JSON-shaped result of one oracle rule evaluation. -/
structure RuleEvalOutcome where
  isMatch : Bool
  confidence : ℚ
  reason : String
deriving DecidableEq, Repr

/-- The rule-evaluation oracle (the LLM service): a call either returns a
result or fails (error or timeout). -/
def RuleOracle := DetectionRule → SecurityEvent → Except Unit RuleEvalOutcome

/-- `evaluateRule` on the agent: a failing oracle call degrades to a
non-match with confidence 0 instead of aborting the event. -/
def evaluateRule (oracle : RuleOracle) (rule : DetectionRule)
    (e : SecurityEvent) : RuleEvalOutcome :=
  match oracle rule e with
  | Except.ok res => res
  | Except.error _ => ⟨false, 0, "Evaluation error"⟩

/-- Does `hay` start with `needle`? (JS `String.startsWith` on char lists.) -/
def startsWithSeq : List Char → List Char → Bool
  | [], _ => true
  | _ :: _, [] => false
  | a :: as, b :: bs => a = b && startsWithSeq as bs

/-- Does `hay` contain `needle` as a contiguous run? (JS `String.includes`.) -/
def containsSeq (hay needle : List Char) : Bool :=
  match hay with
  | [] => needle.isEmpty
  | _ :: t => startsWithSeq needle hay || containsSeq t needle

/-- Lowercase a char-list string (JS `toLowerCase`). -/
def toLowerSeq (s : List Char) : List Char := s.map Char.toLower

/-- `hasSimilarRule`: substring overlap between the event type and the rule's
first MITRE technique (a missing first technique degrades to the empty
string). -/
def hasSimilarRule (rule : DetectionRule) (e : SecurityEvent) : Bool :=
  let eventType := toLowerSeq e.eventType
  let ruleTechnique :=
    match rule.mitreTechniques.head? with
    | some t => toLowerSeq t
    | none => []
  containsSeq eventType ruleTechnique || containsSeq ruleTechnique eventType

/-- The result of `evaluateRules`. -/
structure RuleResults where
  matchedRules : List DetectionRule
  needsRecommendation : Bool
  falsePositiveRisk : ℚ
deriving DecidableEq, Repr

/-- The body of the rule loop of `evaluateRules`: a matched low-confidence
rule adds false-positive risk; a matched high-confidence rule without a
similar existing rule requests a recommendation; a non-match leaves the
accumulator unchanged. -/
def evaluateRulesStep (oracle : RuleOracle) (e : SecurityEvent)
    (acc : RuleResults) (rule : DetectionRule) : RuleResults :=
  let matchResult := evaluateRule oracle rule e
  if matchResult.isMatch then
    let acc1 := { acc with matchedRules := acc.matchedRules ++ [rule] }
    let acc2 :=
      if matchResult.confidence < 0.7 then
        { acc1 with falsePositiveRisk :=
            acc1.falsePositiveRisk + (1 - matchResult.confidence) * 0.3 }
      else acc1
    if matchResult.confidence > 0.8 ∧ hasSimilarRule rule e = false then
      { acc2 with needsRecommendation := true }
    else acc2
  else acc

/-- `evaluateRules`: evaluate every active rule and cap the accumulated
false-positive risk at 1.0. -/
def evaluateRules (oracle : RuleOracle) (rules : List DetectionRule)
    (e : SecurityEvent) : RuleResults :=
  let r := rules.foldl (evaluateRulesStep oracle e) ⟨[], false, 0⟩
  { r with falsePositiveRisk := min 1 r.falsePositiveRisk }

/-- The orchestrator's per-event verdict (behavioral part plus rule results;
the graph result is produced by the separate graph engine). -/
structure Verdict where
  behavioral : BehavioralResult
  matchedRules : List DetectionRule
  needsRecommendation : Bool
  falsePositiveRisk : ℚ
deriving DecidableEq, Repr

/-- `processEventPipeline`: Step 1 behavioral analysis (reads the baseline
store, lazily creating missing baselines), Step 4 rule evaluation, Step 6
learning-model update (`updateBaseline`), in the order of the source. -/
def processEventPipeline (cfg : BehavioralConfig) (oracle : RuleOracle)
    (rules : List DetectionRule) (st : Store) (e : SecurityEvent) :
    Verdict × Store :=
  let behavioral := analyzeEvent cfg st e
  let ruleResults := evaluateRules oracle rules e
  let st2 := updateBaseline cfg behavioral.2 e
  (⟨behavioral.1, ruleResults.matchedRules, ruleResults.needsRecommendation,
    ruleResults.falsePositiveRisk⟩, st2)

/-- `updateRulePerformance`: bump the counter named by the feedback and
recompute accuracy and precision from true and false positives. -/
def updateRulePerformance (rule : DetectionRule) (isFalsePositive : Bool) :
    DetectionRule :=
  let perf := rule.performance
  let perf1 :=
    if isFalsePositive then { perf with falsePositives := perf.falsePositives + 1 }
    else { perf with truePositives := perf.truePositives + 1 }
  let total : ℚ := (perf1.truePositives : ℚ) + (perf1.falsePositives : ℚ)
  { rule with performance :=
      { perf1 with
          accuracy := (perf1.truePositives : ℚ) / total,
          precisionScore := (perf1.truePositives : ℚ) /
            ((perf1.truePositives : ℚ) + (perf1.falsePositives : ℚ)) } }

/-! ### Helper lemmas -/

/-- Reading back a key just written to the baseline store. -/
theorem getB_putB (st : Store) (id : String) (b : BehavioralBaseline) :
    getB (putB st id b) id = some b := by
  induction st with
  | nil => simp [putB, getB]
  | cons hd tl ih =>
    obtain ⟨k, v⟩ := hd
    by_cases hk : k = id <;> simp [putB, getB, hk, ih]

/-! ### Claim theorems -/

/-- C1: in the orchestrator pipeline, behavioral analysis is invoked strictly
before the baseline update for the same event: the behavioral component of the
verdict is exactly the analysis of the pre-update store, and the final store is
the baseline update applied only after analysis. -/
theorem pipeline_scores_before_update (cfg : BehavioralConfig) (oracle : RuleOracle)
    (rules : List DetectionRule) (st : Store) (e : SecurityEvent) :
    (processEventPipeline cfg oracle rules st e).1.behavioral =
      (analyzeEvent cfg st e).1 ∧
    (processEventPipeline cfg oracle rules st e).2 =
      updateBaseline cfg (analyzeEvent cfg st e).2 e :=
  ⟨rfl, rfl⟩

/-- C3: the behavioral engine computes z as the absolute deviation of the
current value from the EMA mean divided by the EMA variance (0 when the
variance is not positive), flags an anomaly exactly when z exceeds the
threshold, and assigns severity min(1, z/3) and confidence
min(1, frequency/100). -/
theorem analyzePattern_spec (cfg : BehavioralConfig) (p : BehaviorPattern)
    (current : ℚ) :
    ((analyzePattern cfg p current).isAnomaly = true ↔
      (if p.variance > 0 then |current - p.frequency| / p.variance else 0) >
        cfg.anomalyThreshold) ∧
    (analyzePattern cfg p current).severity =
      min 1 ((if p.variance > 0 then |current - p.frequency| / p.variance else 0) / 3) ∧
    (analyzePattern cfg p current).confidence = min 1 (p.frequency / 100) := by
  refine ⟨?_, rfl, rfl⟩
  simp [analyzePattern]

/-- C4: one baseline update step applies the EMA recurrences (the variance
deviation is taken against the already-updated mean), and bumps the overall
confidence by 0.01 capped at 1.0, so confidence is non-decreasing (from any
reachable confidence, i.e. one at most 1) and never exceeds 1.0. -/
theorem updateEntityBaseline_spec (cfg : BehavioralConfig)
    (b : BehavioralBaseline) (e : SecurityEvent) (hc : b.confidence ≤ 1) :
    (∀ i (h : i < b.patterns.length),
      ∃ h' : i < (updateEntityBaseline cfg b e).patterns.length,
        ((updateEntityBaseline cfg b e).patterns.get ⟨i, h'⟩).frequency =
          (1 - cfg.learningRate) * (b.patterns.get ⟨i, h⟩).frequency +
            cfg.learningRate * extractPatternValue e (b.patterns.get ⟨i, h⟩).type ∧
        ((updateEntityBaseline cfg b e).patterns.get ⟨i, h'⟩).variance =
          (1 - cfg.learningRate) * (b.patterns.get ⟨i, h⟩).variance +
            cfg.learningRate *
              |extractPatternValue e (b.patterns.get ⟨i, h⟩).type -
                ((updateEntityBaseline cfg b e).patterns.get ⟨i, h'⟩).frequency|) ∧
    (updateEntityBaseline cfg b e).confidence = min 1 (b.confidence + 0.01) ∧
    b.confidence ≤ (updateEntityBaseline cfg b e).confidence ∧
    (updateEntityBaseline cfg b e).confidence ≤ 1 := by
  refine ⟨?_, rfl, ?_, min_le_left _ _⟩
  · intro i h
    have h' : i < (updateEntityBaseline cfg b e).patterns.length := by
      simpa [updateEntityBaseline] using h
    refine ⟨h', ?_, ?_⟩ <;>
      simp [updateEntityBaseline, updatePatternWith, List.get_eq_getElem]
  · show b.confidence ≤ min 1 (b.confidence + 0.01)
    refine le_min hc (by linarith)

/-- C4 witness: a concrete baseline update. -/
theorem updateEntityBaseline_spec_witness :
    ((0.1 : ℚ) ≤ 1) ∧
    (updateEntityBaseline ⟨0.7, 0.3⟩
        ⟨"u1", "user", initializePatterns, 0.1⟩
        ⟨"e1", [], ⟨10, 2⟩, ⟨[⟨"u1", "user"⟩], [], [], [], []⟩, ⟨0⟩⟩).confidence =
      min 1 (0.1 + 0.01) :=
  ⟨by norm_num,
    (updateEntityBaseline_spec ⟨0.7, 0.3⟩ ⟨"u1", "user", initializePatterns, 0.1⟩
      ⟨"e1", [], ⟨10, 2⟩, ⟨[⟨"u1", "user"⟩], [], [], [], []⟩, ⟨0⟩⟩
      (by norm_num)).2.1⟩

/-- C5: an entity with no baseline in the store yields the zero per-entity
analysis (no anomalies, risk 0, confidence 0) and, as a side effect, a
baseline is created for it with overall confidence exactly 0.1. -/
theorem analyzeEntityBehavior_cold_start (cfg : BehavioralConfig) (st : Store)
    (entity : Entity) (e : SecurityEvent) (h : getB st entity.id = none) :
    (analyzeEntityBehavior cfg st entity e).1 = ⟨[], 0, 0⟩ ∧
    ∃ b, getB (analyzeEntityBehavior cfg st entity e).2 entity.id = some b ∧
      b.confidence = 0.1 := by
  rw [analyzeEntityBehavior, h]
  exact ⟨rfl, createInitialBaseline entity.id entity.type, getB_putB st _ _, rfl⟩

/-- C5 witness: cold start on the empty store. -/
theorem analyzeEntityBehavior_cold_start_witness :
    getB ([] : Store) "u1" = none ∧
    (analyzeEntityBehavior ⟨0.7, 0.3⟩ [] ⟨"u1", "user"⟩
        ⟨"e1", [], ⟨10, 2⟩, ⟨[⟨"u1", "user"⟩], [], [], [], []⟩, ⟨0⟩⟩).1 =
      ⟨[], 0, 0⟩ :=
  ⟨rfl,
    (analyzeEntityBehavior_cold_start ⟨0.7, 0.3⟩ [] ⟨"u1", "user"⟩
      ⟨"e1", [], ⟨10, 2⟩, ⟨[⟨"u1", "user"⟩], [], [], [], []⟩, ⟨0⟩⟩ rfl).1⟩

/-- C9: after a rule-performance update, accuracy equals precision: both are
recomputed as truePositives / (truePositives + falsePositives), and the
falseNegatives counter has no influence on either. -/
theorem updateRulePerformance_accuracy_eq_precision (rule : DetectionRule)
    (isFalsePositive : Bool) :
    (updateRulePerformance rule isFalsePositive).performance.accuracy =
      (updateRulePerformance rule isFalsePositive).performance.precisionScore ∧
    (updateRulePerformance rule isFalsePositive).performance.accuracy =
      ((updateRulePerformance rule isFalsePositive).performance.truePositives : ℚ) /
        (((updateRulePerformance rule isFalsePositive).performance.truePositives : ℚ) +
          ((updateRulePerformance rule isFalsePositive).performance.falsePositives : ℚ)) ∧
    (∀ n : ℕ,
      (updateRulePerformance
          { rule with performance := { rule.performance with falseNegatives := n } }
          isFalsePositive).performance.accuracy =
        (updateRulePerformance rule isFalsePositive).performance.accuracy) := by
  refine ⟨?_, ?_, ?_⟩ <;> cases isFalsePositive <;>
    simp [updateRulePerformance]

/-! ### Sample values used by witnesses -/

/-- A small concrete event: one user entity, event type "a". -/
def sampleEvent : SecurityEvent :=
  ⟨"e1", ['a'], ⟨10, 2⟩, ⟨[⟨"u1", "user"⟩], [], [], [], []⟩, ⟨0⟩⟩

/-- Zeroed performance block. -/
def samplePerformance : RulePerformance := ⟨0, 0, 0, 0, 0, 0, 0, 0⟩

/-- A rule whose first MITRE technique is "t" (not similar to event type "a"). -/
def sampleRule : DetectionRule := ⟨"r1", [['t']], samplePerformance⟩

/-- A rule with an empty MITRE technique list. -/
def emptyTechniqueRule : DetectionRule := ⟨"r2", [], samplePerformance⟩

/-- A behavioral configuration with threshold 0.7 and learning rate 0.3. -/
def sampleConfig : BehavioralConfig := ⟨0.7, 0.3⟩

/-- An oracle whose every call fails (error or timeout). -/
def failOracle : RuleOracle := fun _ _ => Except.error ()

/-- An oracle that always reports a confident match. -/
def matchOracle : RuleOracle := fun _ _ => Except.ok ⟨true, 0.9, "match"⟩

/-- The edge set of the spec scenario: A-B executes (.9/.9), B-C accesses
(.85/.8). -/
def chainScenarioEdges : List EntityCorrelation :=
  [⟨"A", "B", "executes", 0.9, 0.9⟩, ⟨"B", "C", "accesses", 0.85, 0.8⟩]

/-! ### C2: every emitted threat chain has at least 3 entities and risk above 0.5 -/

/-- C2: every chain emitted by the chain-detection path satisfies
3 or more entities and risk score above 0.5, its edge set is exactly the
candidate edges internal to the component (and is nonempty), and its risk
score is 0.4 times the capped length factor plus 0.4 times the mean internal
edge strength plus 0.2 times the mean internal edge confidence. -/
theorem findThreatChains_invariant (ents : List GraphNode)
    (cs : List EntityCorrelation) (c : ThreatChain)
    (hc : c ∈ findThreatChains ents cs) :
    3 ≤ c.entities.length ∧
    c.riskScore > 0.5 ∧
    c.relationships ≠ [] ∧
    c.relationships = cs.filter (fun x =>
      x.sourceEntity ∈ c.entities ∧ x.targetEntity ∈ c.entities) ∧
    c.riskScore =
      min 1 ((c.entities.length : ℚ) / 10) * 0.4 +
        (c.relationships.map (·.strength)).sum / c.relationships.length * 0.4 +
        (c.relationships.map (·.confidence)).sum / c.relationships.length * 0.2 := by
  rw [findThreatChains, List.mem_filterMap] at hc
  obtain ⟨comp, hcomp, heq⟩ := hc
  by_cases h3 : 3 ≤ comp.length
  · rw [if_pos h3] at heq
    by_cases h5 : (analyzeThreatChain comp cs).riskScore > 0.5
    · rw [if_pos h5] at heq
      injection heq with heq
      subst heq
      have hne : (analyzeThreatChain comp cs).relationships ≠ [] := by
        intro hnil
        have hz : (analyzeThreatChain comp cs).riskScore = 0 := by
          show calculateChainRiskScore comp
            (cs.filter (fun x => x.sourceEntity ∈ comp ∧ x.targetEntity ∈ comp)) = 0
          have : (cs.filter (fun x =>
              x.sourceEntity ∈ comp ∧ x.targetEntity ∈ comp)) = [] := hnil
          rw [this]
          rfl
        rw [hz] at h5
        norm_num at h5
      refine ⟨h3, h5, hne, rfl, ?_⟩
      show calculateChainRiskScore comp
          (cs.filter (fun x => x.sourceEntity ∈ comp ∧ x.targetEntity ∈ comp)) = _
      rw [calculateChainRiskScore]
      rw [if_neg (by
        intro h0
        exact hne (List.length_eq_zero.mp h0))]
      rfl
    · rw [if_neg h5] at heq
      exact absurd heq (by simp)
  · rw [if_neg h3] at heq
    exact absurd heq (by simp)

/-- C2 witness: the scenario component A,B,C is emitted with 3 entities and
risk 0.64. -/
theorem findThreatChains_invariant_witness :
    3 ≤ (analyzeThreatChain ["A", "B", "C"] chainScenarioEdges).entities.length ∧
    (analyzeThreatChain ["A", "B", "C"] chainScenarioEdges).riskScore > 0.5 := by
  have hcc : findConnectedComponents chainScenarioEdges = [["A", "B", "C"]] := rfl
  have hfilter : chainScenarioEdges.filter (fun x =>
      x.sourceEntity ∈ ["A", "B", "C"] ∧ x.targetEntity ∈ ["A", "B", "C"]) =
      chainScenarioEdges := rfl
  have hrisk : (analyzeThreatChain ["A", "B", "C"] chainScenarioEdges).riskScore =
      0.64 := by
    show calculateChainRiskScore ["A", "B", "C"] (chainScenarioEdges.filter (fun x =>
      x.sourceEntity ∈ ["A", "B", "C"] ∧ x.targetEntity ∈ ["A", "B", "C"])) = 0.64
    rw [hfilter, calculateChainRiskScore]
    norm_num [chainScenarioEdges, min_def]
  have hmem : analyzeThreatChain ["A", "B", "C"] chainScenarioEdges ∈
      findThreatChains [] chainScenarioEdges := by
    rw [findThreatChains, hcc]
    norm_num [List.filterMap_cons, hrisk]
  exact ⟨(findThreatChains_invariant [] chainScenarioEdges _ hmem).1,
    (findThreatChains_invariant [] chainScenarioEdges _ hmem).2.1⟩

/-! ### C6: threat-pattern classification table -/

/-- The classification table as the spec states it, applied to the set of
distinct relationship types of a chain's internal edges (first match wins). -/
def threatPatternTable (types : List String) : String :=
  if "communicates_with" ∈ types ∧ "accesses" ∈ types then "lateral_movement"
  else if "executes" ∈ types ∧ "accesses" ∈ types then "privilege_escalation"
  else if "communicates_with" ∈ types ∧ types.length > 2 then "command_and_control"
  else if "accesses" ∈ types ∧ types.length > 3 then "data_exfiltration"
  else "suspicious_activity"

/-- C6: the threat pattern of a component is classified by the fixed ordered
table over the distinct relationship types of its internal edges, and the spec
scenario (A-B executes .9/.9, B-C accesses .85/.8) classifies as privilege
escalation with risk score exactly 0.64. -/
theorem identifyThreatPattern_spec (ents : List String)
    (cs : List EntityCorrelation) :
    identifyThreatPattern ents cs =
      threatPatternTable (uniqList (cs.map (·.relationship))) ∧
    (analyzeThreatChain ["A", "B", "C"] chainScenarioEdges).pattern =
      "privilege_escalation" ∧
    (analyzeThreatChain ["A", "B", "C"] chainScenarioEdges).riskScore = 0.64 := by
  refine ⟨rfl, rfl, ?_⟩
  show calculateChainRiskScore ["A", "B", "C"] (chainScenarioEdges.filter (fun x =>
    x.sourceEntity ∈ ["A", "B", "C"] ∧ x.targetEntity ∈ ["A", "B", "C"])) = 0.64
  have hfilter : chainScenarioEdges.filter (fun x =>
      x.sourceEntity ∈ ["A", "B", "C"] ∧ x.targetEntity ∈ ["A", "B", "C"]) =
      chainScenarioEdges := rfl
  rw [hfilter, calculateChainRiskScore]
  norm_num [chainScenarioEdges, min_def]

/-! ### C8: a failing oracle call degrades to a non-match -/

/-- C8: when the oracle call for a rule fails, the agent's evaluation result is
exactly the degraded non-match (matches false, confidence 0), and the whole
rule-evaluation result and verdict are as if the failing rule were absent: it
is not added to the matched rules, contributes nothing to the false-positive
risk, and the event is still fully processed. -/
theorem oracle_failure_is_degraded_nonmatch (cfg : BehavioralConfig)
    (oracle : RuleOracle) (pre post : List DetectionRule) (r : DetectionRule)
    (st : Store) (e : SecurityEvent) (h : oracle r e = Except.error ()) :
    evaluateRule oracle r e = ⟨false, 0, "Evaluation error"⟩ ∧
    evaluateRules oracle (pre ++ r :: post) e =
      evaluateRules oracle (pre ++ post) e ∧
    processEventPipeline cfg oracle (pre ++ r :: post) st e =
      processEventPipeline cfg oracle (pre ++ post) st e := by
  have h1 : evaluateRule oracle r e = ⟨false, 0, "Evaluation error"⟩ := by
    rw [evaluateRule, h]
  have hstep : ∀ acc, evaluateRulesStep oracle e acc r = acc := by
    intro acc
    simp [evaluateRulesStep, h1]
  have h2 : evaluateRules oracle (pre ++ r :: post) e =
      evaluateRules oracle (pre ++ post) e := by
    rw [evaluateRules, evaluateRules, List.foldl_append, List.foldl_append,
      List.foldl_cons, hstep]
  exact ⟨h1, h2, by rw [processEventPipeline, processEventPipeline, h2]⟩

/-- C8 witness: a concretely failing oracle degrades to the non-match result. -/
theorem oracle_failure_is_degraded_nonmatch_witness :
    failOracle sampleRule sampleEvent = Except.error () ∧
    evaluateRule failOracle sampleRule sampleEvent =
      ⟨false, 0, "Evaluation error"⟩ ∧
    evaluateRules failOracle [sampleRule] sampleEvent =
      evaluateRules failOracle [] sampleEvent :=
  ⟨rfl,
    (oracle_failure_is_degraded_nonmatch sampleConfig failOracle [] [] sampleRule
      [] sampleEvent rfl).1,
    (oracle_failure_is_degraded_nonmatch sampleConfig failOracle [] [] sampleRule
      [] sampleEvent rfl).2.1⟩

/-! ### C10: needsRecommendation and the empty-technique similarity check -/

/-- The empty needle is contained in every haystack (JS `includes` with the
empty string). -/
theorem containsSeq_nil (hay : List Char) : containsSeq hay [] = true := by
  cases hay <;> simp [containsSeq, startsWithSeq, List.isEmpty]

/-- One step of the rule loop can only turn on `needsRecommendation` via a
matched rule with confidence above 0.8 that fails the similarity check. -/
theorem evaluateRulesStep_needsRec (oracle : RuleOracle) (e : SecurityEvent)
    (acc : RuleResults) (r : DetectionRule)
    (h : (evaluateRulesStep oracle e acc r).needsRecommendation = true) :
    acc.needsRecommendation = true ∨
      ((evaluateRule oracle r e).isMatch = true ∧
        (evaluateRule oracle r e).confidence > 0.8 ∧
        hasSimilarRule r e = false) := by
  by_cases hm : (evaluateRule oracle r e).isMatch = true
  · by_cases hc : (evaluateRule oracle r e).confidence > 0.8 ∧
        hasSimilarRule r e = false
    · exact Or.inr ⟨hm, hc⟩
    · left
      rw [evaluateRulesStep] at h
      simp only [hm, if_true] at h
      rw [if_neg hc] at h
      by_cases h7 : (evaluateRule oracle r e).confidence < 0.7 <;>
        simp [h7] at h <;> exact h
  · left
    rw [evaluateRulesStep] at h
    simp only [Bool.not_eq_true] at hm
    simp only [hm, Bool.false_eq_true, if_false] at h
    exact h

/-- The rule fold can only turn on `needsRecommendation` via some rule of the
list that matched with confidence above 0.8 and failed the similarity check. -/
theorem foldl_needsRec (oracle : RuleOracle) (e : SecurityEvent) :
    ∀ (rules : List DetectionRule) (acc : RuleResults),
      (rules.foldl (evaluateRulesStep oracle e) acc).needsRecommendation = true →
      acc.needsRecommendation = true ∨
        ∃ r ∈ rules, (evaluateRule oracle r e).isMatch = true ∧
          (evaluateRule oracle r e).confidence > 0.8 ∧
          hasSimilarRule r e = false
  | [], _, h => Or.inl h
  | r :: rs, acc, h => by
    rcases foldl_needsRec oracle e rs (evaluateRulesStep oracle e acc r) h with
      h1 | ⟨r', hr', hp⟩
    · rcases evaluateRulesStep_needsRec oracle e acc r h1 with h2 | h2
      · exact Or.inl h2
      · exact Or.inr ⟨r, List.mem_cons_self r rs, h2⟩
    · exact Or.inr ⟨r', List.mem_cons_of_mem r hr', hp⟩

/-- C10: `needsRecommendation` can only become true via a rule that matched
with confidence above 0.8 and failed the similarity check; a matched rule with
an empty MITRE technique list (or an empty first technique) always passes the
similarity check, because the empty string is a substring of every event type,
so such rules can never set `needsRecommendation`, for any event. -/
theorem evaluateRules_needsRecommendation_spec (oracle : RuleOracle)
    (rules : List DetectionRule) (e : SecurityEvent) :
    ((evaluateRules oracle rules e).needsRecommendation = true →
      ∃ r ∈ rules, (evaluateRule oracle r e).isMatch = true ∧
        (evaluateRule oracle r e).confidence > 0.8 ∧
        hasSimilarRule r e = false) ∧
    (∀ r : DetectionRule,
      r.mitreTechniques = [] ∨ r.mitreTechniques.head? = some [] →
      hasSimilarRule r e = true) ∧
    ((∀ r ∈ rules, r.mitreTechniques = [] ∨ r.mitreTechniques.head? = some []) →
      (evaluateRules oracle rules e).needsRecommendation = false) := by
  have hsim : ∀ r : DetectionRule,
      r.mitreTechniques = [] ∨ r.mitreTechniques.head? = some [] →
      hasSimilarRule r e = true := by
    intro r hr
    rcases hr with h | h <;>
      simp [hasSimilarRule, h, toLowerSeq, containsSeq_nil]
  have hmain : (evaluateRules oracle rules e).needsRecommendation = true →
      ∃ r ∈ rules, (evaluateRule oracle r e).isMatch = true ∧
        (evaluateRule oracle r e).confidence > 0.8 ∧
        hasSimilarRule r e = false := by
    intro h
    rw [evaluateRules] at h
    rcases foldl_needsRec oracle e rules ⟨[], false, 0⟩ h with h1 | h2
    · exact absurd h1 (by simp)
    · exact h2
  refine ⟨hmain, hsim, ?_⟩
  intro hall
  by_contra hne
  rw [Bool.not_eq_false] at hne
  obtain ⟨r, hr, _, _, hsimf⟩ := hmain hne
  rw [hsim r (hall r hr)] at hsimf
  exact absurd hsimf (by simp)

/-- C10 witness: a dissimilar confident match sets the flag, and a rule with an
empty technique list always counts as similar. -/
theorem evaluateRules_needsRecommendation_witness :
    (evaluateRules matchOracle [sampleRule] sampleEvent).needsRecommendation =
      true ∧
    hasSimilarRule emptyTechniqueRule sampleEvent = true := by
  constructor
  · have hsim : hasSimilarRule sampleRule sampleEvent = false := by decide
    have heval : evaluateRule matchOracle sampleRule sampleEvent =
        ⟨true, 0.9, "match"⟩ := rfl
    rw [evaluateRules]
    simp only [List.foldl_cons, List.foldl_nil]
    rw [evaluateRulesStep]
    norm_num [heval, hsim]
  · exact (evaluateRules_needsRecommendation_spec matchOracle [sampleRule]
      sampleEvent).2.1 emptyTechniqueRule (Or.inl rfl)

/-! ### C7: connected components form a partition (DFS correctness) -/

/-- Membership in `addNode`. -/
theorem mem_addNode {acc : List String} {x y : String} :
    y ∈ addNode acc x ↔ y ∈ acc ∨ y = x := by
  unfold addNode
  by_cases h : x ∈ acc
  · rw [if_pos h]
    exact ⟨Or.inl, fun hy => hy.elim id (fun he => he ▸ h)⟩
  · rw [if_neg h]
    simp

/-- `addNode` preserves freedom from duplicates. -/
theorem nodup_addNode {acc : List String} (h : acc.Nodup) (x : String) :
    (addNode acc x).Nodup := by
  unfold addNode
  by_cases hx : x ∈ acc
  · rwa [if_pos hx]
  · rw [if_neg hx]
    simp [List.nodup_append, h, hx]

/-- Membership in the accumulator of the `nodesOf` fold. -/
theorem mem_nodesOf_aux (cs : List EntityCorrelation) :
    ∀ (acc : List String) (x : String),
      (x ∈ cs.foldl
        (fun acc c => addNode (addNode acc c.sourceEntity) c.targetEntity) acc ↔
      x ∈ acc ∨ ∃ c ∈ cs, x = c.sourceEntity ∨ x = c.targetEntity) := by
  induction cs with
  | nil => simp
  | cons c cs ih =>
    intro acc x
    rw [List.foldl_cons, ih]
    constructor
    · rintro (hmem | ⟨c', hc', hx⟩)
      · rcases mem_addNode.mp hmem with h1 | rfl
        · rcases mem_addNode.mp h1 with h2 | rfl
          · exact Or.inl h2
          · exact Or.inr ⟨c, List.mem_cons_self c cs, Or.inl rfl⟩
        · exact Or.inr ⟨c, List.mem_cons_self c cs, Or.inr rfl⟩
      · exact Or.inr ⟨c', List.mem_cons_of_mem c hc', hx⟩
    · rintro (hx | ⟨c', hc', hx⟩)
      · exact Or.inl (mem_addNode.mpr (Or.inl (mem_addNode.mpr (Or.inl hx))))
      · rcases List.mem_cons.mp hc' with rfl | hc'
        · rcases hx with rfl | rfl
          · exact Or.inl (mem_addNode.mpr (Or.inl (mem_addNode.mpr (Or.inr rfl))))
          · exact Or.inl (mem_addNode.mpr (Or.inr rfl))
        · exact Or.inr ⟨c', hc', hx⟩

/-- The graph keys are exactly the edge endpoints. -/
theorem mem_nodesOf {cs : List EntityCorrelation} {x : String} :
    x ∈ nodesOf cs ↔ ∃ c ∈ cs, x = c.sourceEntity ∨ x = c.targetEntity := by
  rw [nodesOf, mem_nodesOf_aux]
  simp

/-- The graph keys carry no duplicates. -/
theorem nodesOf_nodup (cs : List EntityCorrelation) : (nodesOf cs).Nodup := by
  rw [nodesOf]
  generalize h0 : ([] : List String) = acc
  have hacc : acc.Nodup := h0 ▸ List.nodup_nil
  clear h0
  induction cs generalizing acc with
  | nil => exact hacc
  | cons c cs ih =>
    rw [List.foldl_cons]
    exact ih _ (nodup_addNode (nodup_addNode hacc _) _)

/-- The adjacency relation is symmetric. -/
theorem adj_symm {cs : List EntityCorrelation} {a b : String}
    (h : adj cs a b) : adj cs b a := by
  obtain ⟨c, hc, h⟩ := h
  exact ⟨c, hc, h.symm⟩

/-- The left end of an edge is a graph key. -/
theorem adj_mem_left {cs : List EntityCorrelation} {a b : String}
    (h : adj cs a b) : a ∈ nodesOf cs := by
  obtain ⟨c, hc, h | h⟩ := h
  · exact mem_nodesOf.mpr ⟨c, hc, Or.inl h.1.symm⟩
  · exact mem_nodesOf.mpr ⟨c, hc, Or.inr h.2.symm⟩

/-- The right end of an edge is a graph key. -/
theorem adj_mem_right {cs : List EntityCorrelation} {a b : String}
    (h : adj cs a b) : b ∈ nodesOf cs :=
  adj_mem_left (adj_symm h)

/-- Reachability stays inside the graph keys. -/
theorem reach_mem_nodes {cs : List EntityCorrelation} {u x : String}
    (hu : u ∈ nodesOf cs) (h : Relation.ReflTransGen (adj cs) u x) :
    x ∈ nodesOf cs := by
  induction h with
  | refl => exact hu
  | tail _ hadj _ => exact adj_mem_right hadj

/-- The adjacency list of a node enumerates exactly its adjacency relation. -/
theorem mem_neighbors {cs : List EntityCorrelation} {u n : String} :
    n ∈ neighbors cs u ↔ adj cs u n := by
  rw [neighbors, List.mem_flatMap]
  constructor
  · rintro ⟨c, hc, hn⟩
    rw [List.mem_append] at hn
    rcases hn with hn | hn
    · by_cases h : c.sourceEntity = u
      · rw [if_pos h, List.mem_singleton] at hn
        exact ⟨c, hc, Or.inl ⟨h, hn.symm⟩⟩
      · rw [if_neg h] at hn
        exact absurd hn (List.not_mem_nil n)
    · by_cases h : c.targetEntity = u
      · rw [if_pos h, List.mem_singleton] at hn
        exact ⟨c, hc, Or.inr ⟨hn.symm, h⟩⟩
      · rw [if_neg h] at hn
        exact absurd hn (List.not_mem_nil n)
  · rintro ⟨c, hc, ⟨h1, h2⟩ | ⟨h1, h2⟩⟩
    · exact ⟨c, hc, List.mem_append.mpr (Or.inl (by rw [if_pos h1]; simp [h2]))⟩
    · exact ⟨c, hc, List.mem_append.mpr (Or.inr (by rw [if_pos h2]; simp [h1]))⟩

/-- The neighbor loop only appends to the visited list. -/
theorem dfsList_extends (child : String → List String → List String)
    (hchild : ∀ n vis, vis <+: child n vis) :
    ∀ (stack vis : List String), vis <+: dfsList child stack vis := by
  intro stack
  induction stack with
  | nil => intro vis; exact ⟨[], List.append_nil vis⟩
  | cons n ns ih =>
    intro vis
    rw [dfsList]
    by_cases h : n ∈ vis
    · rw [if_pos h]
      exact ih vis
    · rw [if_neg h]
      exact (hchild n vis).trans (ih (child n vis))

/-- A DFS visit only appends to the visited list. -/
theorem dfsNode_extends (cs : List EntityCorrelation) :
    ∀ (fuel : ℕ) (u : String) (vis : List String),
      vis <+: dfsNode cs fuel u vis := by
  intro fuel
  induction fuel with
  | zero => intro u vis; exact ⟨[], List.append_nil vis⟩
  | succ f ih =>
    intro u vis
    rw [dfsNode]
    exact List.IsPrefix.trans ⟨[u], rfl⟩
      (dfsList_extends (dfsNode cs f) (ih) (neighbors cs u) (vis ++ [u]))

/-- Everything the neighbor loop adds is reachable from some stack element. -/
theorem dfsList_reach (cs : List EntityCorrelation)
    (child : String → List String → List String)
    (hchild : ∀ n vis x, x ∈ child n vis →
      x ∈ vis ∨ Relation.ReflTransGen (adj cs) n x) :
    ∀ stack vis x, x ∈ dfsList child stack vis →
      x ∈ vis ∨ ∃ s ∈ stack, Relation.ReflTransGen (adj cs) s x := by
  intro stack
  induction stack with
  | nil => intro vis x hx; exact Or.inl hx
  | cons n ns ih =>
    intro vis x hx
    rw [dfsList] at hx
    by_cases h : n ∈ vis
    · rw [if_pos h] at hx
      rcases ih vis x hx with h1 | ⟨s, hs, hr⟩
      · exact Or.inl h1
      · exact Or.inr ⟨s, List.mem_cons_of_mem n hs, hr⟩
    · rw [if_neg h] at hx
      rcases ih (child n vis) x hx with h1 | ⟨s, hs, hr⟩
      · rcases hchild n vis x h1 with h2 | h2
        · exact Or.inl h2
        · exact Or.inr ⟨n, List.mem_cons_self n ns, h2⟩
      · exact Or.inr ⟨s, List.mem_cons_of_mem n hs, hr⟩

/-- Everything a DFS visit adds is reachable from the visited node. -/
theorem dfsNode_reach (cs : List EntityCorrelation) :
    ∀ fuel u vis x, x ∈ dfsNode cs fuel u vis →
      x ∈ vis ∨ Relation.ReflTransGen (adj cs) u x := by
  intro fuel
  induction fuel with
  | zero => intro u vis x hx; exact Or.inl hx
  | succ f ih =>
    intro u vis x hx
    rw [dfsNode] at hx
    rcases dfsList_reach cs (dfsNode cs f) ih (neighbors cs u) (vis ++ [u]) x hx
      with h1 | ⟨s, hs, hr⟩
    · rw [List.mem_append] at h1
      rcases h1 with h1 | h1
      · exact Or.inl h1
      · rw [List.mem_singleton] at h1
        exact Or.inr (h1 ▸ Relation.ReflTransGen.refl)
    · exact Or.inr (Relation.ReflTransGen.head (mem_neighbors.mp hs) hr)

/-- The neighbor loop preserves freedom from duplicates. -/
theorem dfsList_nodup (child : String → List String → List String)
    (hchild : ∀ n vis, n ∉ vis → vis.Nodup → (child n vis).Nodup) :
    ∀ stack vis, vis.Nodup → (dfsList child stack vis).Nodup := by
  intro stack
  induction stack with
  | nil => intro vis h; exact h
  | cons n ns ih =>
    intro vis h
    rw [dfsList]
    by_cases hn : n ∈ vis
    · rw [if_pos hn]
      exact ih vis h
    · rw [if_neg hn]
      exact ih (child n vis) (hchild n vis hn h)

/-- A DFS visit of an unvisited node preserves freedom from duplicates. -/
theorem dfsNode_nodup (cs : List EntityCorrelation) :
    ∀ fuel u vis, u ∉ vis → vis.Nodup → (dfsNode cs fuel u vis).Nodup := by
  intro fuel
  induction fuel with
  | zero => intro u vis _ h; exact h
  | succ f ih =>
    intro u vis hu h
    rw [dfsNode]
    refine dfsList_nodup (dfsNode cs f) ih (neighbors cs u) (vis ++ [u]) ?_
    simp [List.nodup_append, h, hu]

/-- With adequate fuel, the neighbor loop visits every stack element, and
every node it visits has all its neighbors visited too. -/
theorem dfsList_closed (cs : List EntityCorrelation) (f : ℕ)
    (ih : ∀ n vis, n ∈ nodesOf cs → n ∉ vis →
      ((nodesOf cs).toFinset \ vis.toFinset).card < f →
      n ∈ dfsNode cs f n vis ∧
        (∀ x ∈ dfsNode cs f n vis, x ∉ vis → ∀ y, adj cs x y →
          y ∈ dfsNode cs f n vis)) :
    ∀ stack vis, (∀ s ∈ stack, s ∈ nodesOf cs) →
      ((nodesOf cs).toFinset \ vis.toFinset).card < f →
      (∀ s ∈ stack, s ∈ dfsList (dfsNode cs f) stack vis) ∧
      (∀ x ∈ dfsList (dfsNode cs f) stack vis, x ∉ vis →
        ∀ y, adj cs x y → y ∈ dfsList (dfsNode cs f) stack vis) := by
  intro stack
  induction stack with
  | nil =>
    intro vis _ _
    exact ⟨fun s hs => absurd hs (List.not_mem_nil s),
      fun x hx hxv => absurd hx hxv⟩
  | cons n ns ihs =>
    intro vis hstack hcard
    rw [dfsList]
    by_cases hn : n ∈ vis
    · rw [if_pos hn]
      have IH := ihs vis (fun s hs => hstack s (List.mem_cons_of_mem n hs)) hcard
      refine ⟨?_, IH.2⟩
      intro s hs
      rcases List.mem_cons.mp hs with rfl | hs
      · exact (dfsList_extends (dfsNode cs f) (dfsNode_extends cs f) ns vis).subset hn
      · exact IH.1 s hs
    · rw [if_neg hn]
      have hnE : n ∈ nodesOf cs := hstack n (List.mem_cons_self n ns)
      have hc2 := ih n vis hnE hn hcard
      have hsub : vis.toFinset ⊆ (dfsNode cs f n vis).toFinset := by
        intro a ha
        rw [List.mem_toFinset] at ha ⊢
        exact (dfsNode_extends cs f n vis).subset ha
      have hcard1 :
          ((nodesOf cs).toFinset \ (dfsNode cs f n vis).toFinset).card < f :=
        lt_of_le_of_lt
          (Finset.card_le_card
            (Finset.sdiff_subset_sdiff (Finset.Subset.refl _) hsub)) hcard
      have IH := ihs (dfsNode cs f n vis)
        (fun s hs => hstack s (List.mem_cons_of_mem n hs)) hcard1
      have hvsub : ∀ a, a ∈ dfsNode cs f n vis →
          a ∈ dfsList (dfsNode cs f) ns (dfsNode cs f n vis) := fun a ha =>
        (dfsList_extends (dfsNode cs f) (dfsNode_extends cs f) ns
          (dfsNode cs f n vis)).subset ha
      constructor
      · intro s hs
        rcases List.mem_cons.mp hs with rfl | hs
        · exact hvsub s hc2.1
        · exact IH.1 s hs
      · intro x hx hxvis y hadj
        by_cases hxv : x ∈ dfsNode cs f n vis
        · exact hvsub y (hc2.2 x hxv hxvis y hadj)
        · exact IH.2 x hx hxv y hadj

/-- With adequate fuel, a DFS visit contains its root, and every node it
visits (root included) has all its neighbors visited too. -/
theorem dfsNode_closed (cs : List EntityCorrelation) :
    ∀ fuel u vis, u ∈ nodesOf cs → u ∉ vis →
      ((nodesOf cs).toFinset \ vis.toFinset).card < fuel →
      u ∈ dfsNode cs fuel u vis ∧
        (∀ x ∈ dfsNode cs fuel u vis, x ∉ vis → ∀ y, adj cs x y →
          y ∈ dfsNode cs fuel u vis) := by
  intro fuel
  induction fuel with
  | zero => intro u vis _ _ hcard; exact absurd hcard (Nat.not_lt_zero _)
  | succ f ih =>
    intro u vis huE huv hcard
    rw [dfsNode]
    have hcard1 :
        ((nodesOf cs).toFinset \ (vis ++ [u]).toFinset).card < f := by
      have heq : (nodesOf cs).toFinset \ (vis ++ [u]).toFinset =
          ((nodesOf cs).toFinset \ vis.toFinset).erase u := by
        rw [List.toFinset_append]
        have : vis.toFinset ∪ [u].toFinset = insert u vis.toFinset := by
          simp [Finset.insert_eq, Finset.union_comm]
        rw [this, Finset.sdiff_insert]
      have hmem : u ∈ (nodesOf cs).toFinset \ vis.toFinset := by
        rw [Finset.mem_sdiff, List.mem_toFinset, List.mem_toFinset]
        exact ⟨huE, huv⟩
      have hpos : 0 < ((nodesOf cs).toFinset \ vis.toFinset).card :=
        Finset.card_pos.mpr ⟨u, hmem⟩
      rw [heq, Finset.card_erase_of_mem hmem]
      omega
    have hstack : ∀ s ∈ neighbors cs u, s ∈ nodesOf cs := fun s hs =>
      adj_mem_right (mem_neighbors.mp hs)
    have hlist := dfsList_closed cs f ih (neighbors cs u) (vis ++ [u])
      hstack hcard1
    constructor
    · refine (dfsList_extends (dfsNode cs f) (dfsNode_extends cs f)
        (neighbors cs u) (vis ++ [u])).subset ?_
      simp
    · intro x hx hxvis y hadj
      by_cases hxu : x = u
      · subst hxu
        exact hlist.1 y (mem_neighbors.mpr hadj)
      · have hxvis1 : x ∉ vis ++ [u] := by
          rw [List.mem_append, List.mem_singleton]
          rintro (h | h)
          · exact hxvis h
          · exact hxu h
        exact hlist.2 x hx hxvis1 y hadj

/-- One DFS call from an unvisited graph key over a closed duplicate-free
visited list: the appended suffix is exactly the connected component of the
root. -/
theorem dfs_component (cs : List EntityCorrelation) (u : String)
    (visited : List String) (huE : u ∈ nodesOf cs) (huv : u ∉ visited)
    (hnd : visited.Nodup)
    (hcl : ∀ x ∈ visited, ∀ y, adj cs x y → y ∈ visited) :
    dfs cs u visited = visited ++ (dfs cs u visited).drop visited.length ∧
    (dfs cs u visited).Nodup ∧
    (∀ x ∈ (dfs cs u visited).drop visited.length, x ∉ visited) ∧
    u ∈ (dfs cs u visited).drop visited.length ∧
    (∀ x ∈ (dfs cs u visited).drop visited.length, x ∈ nodesOf cs) ∧
    (∀ x ∈ (dfs cs u visited).drop visited.length, ∀ y,
      (y ∈ (dfs cs u visited).drop visited.length ↔
        Relation.ReflTransGen (adj cs) x y)) ∧
    (∀ x ∈ dfs cs u visited, ∀ y, adj cs x y → y ∈ dfs cs u visited) := by
  have hfuel : ((nodesOf cs).toFinset \ visited.toFinset).card <
      (nodesOf cs).length + 1 :=
    lt_of_le_of_lt
      (le_trans (Finset.card_le_card (Finset.sdiff_subset))
        (List.toFinset_card_le (nodesOf cs)))
      (Nat.lt_succ_self _)
  have hpre : visited <+: dfs cs u visited := dfsNode_extends cs _ u visited
  obtain ⟨t, ht⟩ := hpre
  have hdrop : (dfs cs u visited).drop visited.length = t := by
    rw [← ht, List.drop_left]
  have hnd' : (dfs cs u visited).Nodup := dfsNode_nodup cs _ u visited huv hnd
  have hdisj : ∀ x ∈ t, x ∉ visited := by
    have h := hnd'
    rw [← ht, List.nodup_append] at h
    exact fun x hx hv => h.2.2 hv hx
  have hclosed := dfsNode_closed cs _ u visited huE huv hfuel
  have hmem_t : ∀ x, (x ∈ t ↔ x ∈ dfs cs u visited ∧ x ∉ visited) := by
    intro x
    constructor
    · intro hx
      exact ⟨ht ▸ List.mem_append_right visited hx, hdisj x hx⟩
    · rintro ⟨hx, hxv⟩
      rw [← ht, List.mem_append] at hx
      exact hx.resolve_left hxv
  have hu_t : u ∈ t := (hmem_t u).mpr ⟨hclosed.1, huv⟩
  have hreach : ∀ x ∈ t, Relation.ReflTransGen (adj cs) u x := by
    intro x hx
    rcases dfsNode_reach cs _ u visited x ((hmem_t x).mp hx).1 with h | h
    · exact absurd h (hdisj x hx)
    · exact h
  have hE_t : ∀ x ∈ t, x ∈ nodesOf cs := fun x hx =>
    reach_mem_nodes huE (hreach x hx)
  have hcomp_closed : ∀ x ∈ t, ∀ y, adj cs x y → y ∈ t := by
    intro x hx y hadj
    have hy' : y ∈ dfs cs u visited :=
      hclosed.2 x ((hmem_t x).mp hx).1 (hdisj x hx) y hadj
    by_cases hyv : y ∈ visited
    · exact absurd (hcl y hyv x (adj_symm hadj)) (hdisj x hx)
    · exact (hmem_t y).mpr ⟨hy', hyv⟩
  have hsymm : Symmetric (Relation.ReflTransGen (adj cs)) :=
    Relation.ReflTransGen.symmetric (fun _ _ h => adj_symm h)
  have hiff : ∀ x ∈ t, ∀ y, (y ∈ t ↔ Relation.ReflTransGen (adj cs) x y) := by
    intro x hx y
    constructor
    · intro hy
      exact Relation.ReflTransGen.trans (hsymm (hreach x hx)) (hreach y hy)
    · intro hr
      induction hr with
      | refl => exact hx
      | tail h1 h2 ih => exact hcomp_closed _ ih _ h2
  have hvis_closed : ∀ x ∈ dfs cs u visited, ∀ y, adj cs x y →
      y ∈ dfs cs u visited := by
    intro x hx y hadj
    by_cases hxv : x ∈ visited
    · exact ht ▸ List.mem_append_left t (hcl x hxv y hadj)
    · exact hclosed.2 x hx hxv y hadj
  rw [hdrop]
  exact ⟨ht.symm, hnd', hdisj, hu_t, hE_t, hiff, hvis_closed⟩

/-- The component loop: every emitted component consists of unvisited graph
keys, every unvisited listed key lands in some component, components are
pairwise disjoint, and each component is the set of entities reachable from
any of its members. -/
theorem ccGo_spec (cs : List EntityCorrelation) :
    ∀ (us visited : List String),
      (∀ u ∈ us, u ∈ nodesOf cs) → visited.Nodup →
      (∀ x ∈ visited, ∀ y, adj cs x y → y ∈ visited) →
      (∀ C ∈ ccGo cs us visited, ∀ x ∈ C, x ∉ visited ∧ x ∈ nodesOf cs) ∧
      (∀ x ∈ us, x ∉ visited → ∃ C ∈ ccGo cs us visited, x ∈ C) ∧
      List.Pairwise (fun C₁ C₂ => ∀ x ∈ C₁, x ∉ C₂) (ccGo cs us visited) ∧
      (∀ C ∈ ccGo cs us visited, ∀ x ∈ C, ∀ y,
        (y ∈ C ↔ Relation.ReflTransGen (adj cs) x y)) := by
  intro us
  induction us with
  | nil =>
    intro visited _ _ _
    rw [ccGo]
    refine ⟨?_, ?_, ?_, ?_⟩ <;> simp
  | cons u us ih =>
    intro visited hus hnd hcl
    rw [ccGo]
    by_cases hu : u ∈ visited
    · rw [if_pos hu]
      have IH := ih visited (fun s hs => hus s (List.mem_cons_of_mem u hs)) hnd hcl
      refine ⟨IH.1, ?_, IH.2.2.1, IH.2.2.2⟩
      intro x hx hxv
      rcases List.mem_cons.mp hx with rfl | hx
      · exact absurd hu hxv
      · exact IH.2.1 x hx hxv
    · rw [if_neg hu]
      obtain ⟨happ, hnd', hdisj, hu_c, hE_c, hiff_c, hcl'⟩ :=
        dfs_component cs u visited (hus u (List.mem_cons_self u us)) hu hnd hcl
      have IH := ih (dfs cs u visited)
        (fun s hs => hus s (List.mem_cons_of_mem u hs)) hnd' hcl'
      have hsubvis : ∀ x ∈ visited, x ∈ dfs cs u visited := fun x hx =>
        happ ▸ List.mem_append_left _ hx
      have hsubcomp : ∀ x ∈ (dfs cs u visited).drop visited.length,
          x ∈ dfs cs u visited := fun x hx =>
        happ ▸ List.mem_append_right _ hx
      refine ⟨?_, ?_, ?_, ?_⟩
      · intro C hC x hx
        rcases List.mem_cons.mp hC with rfl | hC
        · exact ⟨hdisj x hx, hE_c x hx⟩
        · refine ⟨fun hxv => (IH.1 C hC x hx).1 (hsubvis x hxv),
            (IH.1 C hC x hx).2⟩
      · intro x hx hxv
        rcases List.mem_cons.mp hx with rfl | hx
        · exact ⟨_, List.mem_cons_self _ _, hu_c⟩
        · by_cases hxv' : x ∈ dfs cs u visited
          · refine ⟨_, List.mem_cons_self _ _, ?_⟩
            have := happ ▸ hxv'
            rcases List.mem_append.mp this with h | h
            · exact absurd h hxv
            · exact h
          · obtain ⟨C, hC, hxC⟩ := IH.2.1 x hx hxv'
            exact ⟨C, List.mem_cons_of_mem _ hC, hxC⟩
      · refine List.Pairwise.cons ?_ IH.2.2.1
        intro C' hC' x hx hxC'
        exact (IH.1 C' hC' x hxC').1 (hsubcomp x hx)
      · intro C hC x hx y
        rcases List.mem_cons.mp hC with rfl | hC
        · exact hiff_c x hx y
        · exact IH.2.2.2 C hC x hx y

/-- C7: the components returned by `findConnectedComponents` partition the
entities that occur as an endpoint of some candidate edge: every endpoint
appears in some component, components are pairwise disjoint, and each
component is exactly the set of entities mutually reachable from any of its
members through the candidate edges treated as undirected. -/
theorem findConnectedComponents_partition (cs : List EntityCorrelation) :
    (∀ x, (∃ C ∈ findConnectedComponents cs, x ∈ C) ↔
      ∃ c ∈ cs, x = c.sourceEntity ∨ x = c.targetEntity) ∧
    List.Pairwise (fun C₁ C₂ => ∀ x ∈ C₁, x ∉ C₂)
      (findConnectedComponents cs) ∧
    (∀ C ∈ findConnectedComponents cs, ∀ x ∈ C, ∀ y,
      (y ∈ C ↔ Relation.ReflTransGen (adj cs) x y)) := by
  have h := ccGo_spec cs (nodesOf cs) [] (fun u hu => hu) List.nodup_nil
    (by simp)
  rw [findConnectedComponents]
  refine ⟨?_, h.2.2.1, h.2.2.2⟩
  intro x
  constructor
  · rintro ⟨C, hC, hx⟩
    exact mem_nodesOf.mp (h.1 C hC x hx).2
  · intro hx
    exact h.2.1 x (mem_nodesOf.mpr hx) (List.not_mem_nil x)

/-- C7 witness: in the scenario graph, A and C are connected through B, as
read off the emitted component. -/
theorem findConnectedComponents_partition_witness :
    Relation.ReflTransGen (adj chainScenarioEdges) "A" "C" := by
  have hcc : findConnectedComponents chainScenarioEdges = [["A", "B", "C"]] :=
    rfl
  have hmem : ["A", "B", "C"] ∈ findConnectedComponents chainScenarioEdges := by
    rw [hcc]
    exact List.mem_singleton.mpr rfl
  have h := (findConnectedComponents_partition chainScenarioEdges).2.2
    ["A", "B", "C"] hmem "A" (by simp) "C"
  exact h.mp (by simp)

end AIDetection
